import Mathlib

/-!
Shallow embedding of `torchquantum/super_layers.py`.

The module under study defines a combination enumerator `get_combs` and five
"super layer" classes (`Super1QLayer`, `Super2QLayer`, `Super1QShareFrontLayer`,
`Super1QSingleWireLayer`, `Super1QAllButOneLayer`).  Each layer holds a wire
count and a mutable `sample_arch` selector; its `forward` walks wire indices
`0, …, n_wires-1` in order and applies the per-wire gate instance `ops_all[k]`
to the passed device, at the wires demanded by the selector.  We embed each
`forward` as a function from the layer's state and an opaque device identifier
to the (possibly updated) state paired with the ordered sequence of gate
applications it performs; a gate application records the index of the gate
instance used and the wire list passed to it.  The gate objects themselves,
the `op` constructor and the `has_params` / `trainable` flags are opaque
collaborators that the module only stores and forwards, so they are
represented by the gate-instance index alone.

Python equality distinguishes lists from tuples (`[0, 1] == (0, 1)` is
`False`), which matters for `Super2QLayer.forward`: its membership tests build
Python *lists* `[k, (k+1) % n_wires]`, while `arch_space` produces selectors
whose members are *tuples*.  We model the values that can appear inside a
`Super2QLayer` selector by `PySeq`, a sequence of wire indices tagged as
Python list or Python tuple, with equality exactly Python's `==`.
-/

/-- A Python sequence value holding wire indices: either a Python `list` or a
Python `tuple`.  Equality mirrors Python `==`: elementwise within the same
kind, and always `False` across kinds. -/
inductive PySeq where
  | list : List Nat → PySeq
  | tuple : List Nat → PySeq
deriving DecidableEq, Repr

/-- One gate application performed by a `forward` pass: `self.ops_all[opIndex]`
was called with the wire list `wires`. -/
structure GateApp where
  opIndex : Nat
  wires : List Nat
deriving DecidableEq, Repr

/-- `itertools.combinations(inset, k)`: all length-`k` subsequences of `inset`,
in the order itertools emits them (lexicographic by input position).  Python
yields tuples; we use Lean lists for the selections themselves. -/
def combinations : Nat → List α → List (List α)
  | 0, _ => [[]]
  | _ + 1, [] => []
  | k + 1, x :: xs => ((combinations k xs).map (x :: ·)) ++ combinations (k + 1) xs

/-- The `n` argument of `get_combs`: `None`, a single `int`, or an iterable of
ints.  The source's sizes are Python ints; all sizes the program and the spec
ever mention are non-negative, so they are embedded as `Nat`
(`itertools.combinations` raises on a negative size, a case outside every
claim). -/
inductive CombSizes where
  | none : CombSizes
  | int : Nat → CombSizes
  | iter : List Nat → CombSizes
deriving DecidableEq, Repr

/-- `get_combs(inset, n)` from `super_layers.py`:
`n = None` concatenates `itertools.combinations(inset, k)` for
`k = 1, …, len(inset)`; an `int` takes that one size; an iterable of sizes
concatenates the sizes in iteration order. -/
def get_combs (inset : List α) (n : CombSizes) : List (List α) :=
  match n with
  | .none => ((List.range' 1 inset.length).map (fun k => combinations k inset)).flatten
  | .int k => combinations k inset
  | .iter ns => (ns.map (fun k => combinations k inset)).flatten

/-- Python `sorted(l, reverse=rev)` on a list of naturals.  Python's sort is
stable ascending; with `reverse=True` it is stable descending, which on values
(equal keys are identical naturals) coincides with reversing the ascending
sort. -/
def pySorted (l : List Nat) (rev : Bool) : List Nat :=
  let s := List.insertionSort (· ≤ ·) l
  if rev then s.reverse else s

/-- State of a `Super1QLayer`: wire count and the current `sample_arch`, a
container of Python ints tested with `k in self.sample_arch`.  The opaque gate
objects in `ops_all` (one per wire) are represented by their indices. -/
structure Super1QLayerState where
  n_wires : Nat
  sample_arch : List Int
deriving DecidableEq, Repr

/-- `Super1QLayer.forward(q_device)`: for each `k < n_wires`, if
`k in sample_arch` apply `ops_all[k]` at wire `k`.  It never writes to `self`,
so the state is returned unchanged. -/
def super1QForward (s : Super1QLayerState) (_q_device : Nat) :
    Super1QLayerState × List GateApp :=
  (s, (List.range s.n_wires).filterMap (fun (k : Nat) =>
    if (k : Int) ∈ s.sample_arch then some ⟨k, [k]⟩ else none))

/-- `Super1QLayer.arch_space`: `get_combs(list(range(n_wires)))`. -/
def super1QArchSpace (n_wires : Nat) : List (List Nat) :=
  get_combs (List.range n_wires) .none

/-- State of a `Super2QLayer`: wire count, the `wire_reverse` flag, and the
current `sample_arch`, a container whose members are Python sequences of wire
indices (tuples when the selector comes from `arch_space`). -/
structure Super2QLayerState where
  n_wires : Nat
  wire_reverse : Bool
  sample_arch : List PySeq
deriving DecidableEq, Repr

/-- `Super2QLayer.forward(q_device)`: for each `k < n_wires`, if the Python
list `[k, (k+1) % n_wires]` or the Python list `[(k+1) % n_wires, k]` is a
member of `sample_arch`, apply `ops_all[k]` at
`sorted([k, (k+1) % n_wires], reverse=wire_reverse)`.  No writes to `self`. -/
def super2QForward (s : Super2QLayerState) (_q_device : Nat) :
    Super2QLayerState × List GateApp :=
  (s, (List.range s.n_wires).filterMap (fun (k : Nat) =>
    if PySeq.list [k, (k + 1) % s.n_wires] ∈ s.sample_arch ∨
        PySeq.list [(k + 1) % s.n_wires, k] ∈ s.sample_arch then
      some ⟨k, pySorted [k, (k + 1) % s.n_wires] s.wire_reverse⟩
    else none))

/-- The `choices` list of `Super2QLayer.arch_space`:
`list(itertools.combinations(list(range(n_wires)), 2))`, a list of Python
*tuples* of wire indices. -/
def super2QChoices (n_wires : Nat) : List PySeq :=
  (combinations 2 (List.range n_wires)).map PySeq.tuple

/-- `Super2QLayer.arch_space`: `get_combs(choices)` over the pair tuples. -/
def super2QArchSpace (n_wires : Nat) : List (List PySeq) :=
  get_combs (super2QChoices n_wires) .none

/-- State of a `Super1QShareFrontLayer`: wire count, `n_front_share_wires`,
the integer threshold `sample_arch`, and the `q_device` attribute that
`forward` assigns (`None`/absent before the first call). -/
structure Super1QShareFrontState where
  n_wires : Nat
  n_front_share_wires : Nat
  sample_arch : Int
  q_device : Option Nat
deriving DecidableEq, Repr

/-- `Super1QShareFrontLayer.forward(q_device)`: first stores the device in
`self.q_device`, then for each `k < n_wires`, if `k < sample_arch` applies
`ops_all[k]` at wire `k`. -/
def super1QShareFrontForward (s : Super1QShareFrontState) (q_device : Nat) :
    Super1QShareFrontState × List GateApp :=
  ({ s with q_device := some q_device },
   (List.range s.n_wires).filterMap (fun (k : Nat) =>
     if (k : Int) < s.sample_arch then some ⟨k, [k]⟩ else none))

/-- `Super1QShareFrontLayer.arch_space`:
`list(range(n_front_share_wires, n_wires + 1))`. -/
def super1QShareFrontArchSpace (n_wires n_front_share_wires : Nat) : List Nat :=
  List.range' n_front_share_wires (n_wires + 1 - n_front_share_wires)

/-- State of a `Super1QSingleWireLayer`: wire count and the integer
`sample_arch`. -/
structure Super1QSingleWireState where
  n_wires : Nat
  sample_arch : Int
deriving DecidableEq, Repr

/-- `Super1QSingleWireLayer.forward(q_device)`: for each `k < n_wires`, if
`k == sample_arch` apply `ops_all[k]` at wire `k`.  No writes to `self`. -/
def super1QSingleWireForward (s : Super1QSingleWireState) (_q_device : Nat) :
    Super1QSingleWireState × List GateApp :=
  (s, (List.range s.n_wires).filterMap (fun (k : Nat) =>
    if (k : Int) = s.sample_arch then some ⟨k, [k]⟩ else none))

/-- `Super1QSingleWireLayer.arch_space`: `list(range(n_wires))`. -/
def super1QSingleWireArchSpace (n_wires : Nat) : List Int :=
  (List.range n_wires).map (Int.ofNat)

/-- State of a `Super1QAllButOneLayer`: wire count and the integer
`sample_arch` (the excluded wire). -/
structure Super1QAllButOneState where
  n_wires : Nat
  sample_arch : Int
deriving DecidableEq, Repr

/-- `Super1QAllButOneLayer.forward(q_device)`: for each `k < n_wires`, if
`k != sample_arch` apply `ops_all[k]` at wire `k`.  No writes to `self`. -/
def super1QAllButOneForward (s : Super1QAllButOneState) (_q_device : Nat) :
    Super1QAllButOneState × List GateApp :=
  (s, (List.range s.n_wires).filterMap (fun (k : Nat) =>
    if (k : Int) ≠ s.sample_arch then some ⟨k, [k]⟩ else none))

/-- `Super1QAllButOneLayer.arch_space`: `list(range(n_wires))`. -/
def super1QAllButOneArchSpace (n_wires : Nat) : List Int :=
  (List.range n_wires).map (Int.ofNat)

/-- Spec-side reading of the `Super2QLayer` activation condition, for
comparison with `super2QForward`: "the pair `(k, (k+1) mod n_wires)` or its
reverse is a member of `sample_arch`".  A Python pair literal `(a, b)` is a
tuple, so the pair is the tuple value. -/
def spec_pairSelected (n_wires k : Nat) (sample_arch : List PySeq) : Prop :=
  PySeq.tuple [k, (k + 1) % n_wires] ∈ sample_arch ∨
    PySeq.tuple [(k + 1) % n_wires, k] ∈ sample_arch

instance (n k : Nat) (a : List PySeq) : Decidable (spec_pairSelected n k a) := by
  unfold spec_pairSelected; infer_instance

/-- Ordering "first by size, then lexicographically": the order in which
`get_combs(·, None)` emits its selections. -/
def SizeThenLex (l₁ l₂ : List Nat) : Prop :=
  l₁.length < l₂.length ∨ (l₁.length = l₂.length ∧ List.Lex (· < ·) l₁ l₂)

example : get_combs [0, 1, 2] .none = [[0], [1], [2], [0, 1], [0, 2], [1, 2], [0, 1, 2]] := by
  decide

example : super2QArchSpace 2 = [[PySeq.tuple [0, 1]]] := by decide

example : (super1QSingleWireForward ⟨3, 1⟩ 0).2 = [⟨1, [1]⟩] := by decide

example : (super1QShareFrontForward ⟨3, 1, 2, none⟩ 7).1 =
    ⟨3, 1, 2, some 7⟩ := by decide

example : super1QShareFrontArchSpace 5 2 = [2, 3, 4, 5] := by decide

example : (super2QForward ⟨2, false, [PySeq.tuple [0, 1]]⟩ 0).2 = [] := by decide

example : (super2QForward ⟨2, false, [PySeq.list [0, 1]]⟩ 0).2 =
    [⟨0, [0, 1]⟩, ⟨1, [0, 1]⟩] := by decide

/-! ### Properties of `combinations` and `get_combs` -/

theorem combinations_zero {α : Type _} (xs : List α) : combinations 0 xs = [[]] := by
  cases xs <;> rfl

theorem combinations_length {α : Type _} :
    ∀ (xs : List α) (k : Nat), (combinations k xs).length = xs.length.choose k := by
  intro xs
  induction xs with
  | nil => intro k; cases k <;> simp [combinations]
  | cons x xs ih =>
    intro k
    cases k with
    | zero => simp [combinations]
    | succ k =>
      simp [combinations, ih, Nat.choose_succ_succ]

theorem mem_combinations {α : Type _} :
    ∀ (xs : List α) (k : Nat) (l : List α),
      l ∈ combinations k xs ↔ l.length = k ∧ l.Sublist xs := by
  intro xs
  induction xs with
  | nil =>
    intro k l
    cases k with
    | zero =>
      simp [combinations, List.length_eq_zero, List.sublist_nil, eq_comm]
    | succ k =>
      simp only [combinations, List.not_mem_nil, false_iff, not_and]
      intro hlen hsub
      rw [List.sublist_nil.mp hsub] at hlen
      exact Nat.succ_ne_zero k hlen.symm
  | cons x xs ih =>
    intro k l
    cases k with
    | zero =>
      simp only [combinations, List.mem_singleton]
      constructor
      · rintro rfl; exact ⟨rfl, List.nil_sublist _⟩
      · rintro ⟨hlen, _⟩; exact List.length_eq_zero.mp hlen
    | succ k =>
      simp only [combinations, List.mem_append, List.mem_map]
      constructor
      · rintro (⟨t, ht, rfl⟩ | h)
        · have h' := (ih k t).mp ht
          exact ⟨by simp [h'.1], List.cons_sublist_cons.mpr h'.2⟩
        · have h' := (ih (k + 1) l).mp h
          exact ⟨h'.1, h'.2.cons x⟩
      · rintro ⟨hlen, hsub⟩
        rcases List.sublist_cons_iff.mp hsub with h | ⟨r, rfl, hr⟩
        · exact Or.inr ((ih (k + 1) l).mpr ⟨hlen, h⟩)
        · exact Or.inl ⟨r, (ih k r).mpr ⟨by simpa using hlen, hr⟩, rfl⟩

theorem combinations_map {α β : Type _} (f : α → β) :
    ∀ (xs : List α) (k : Nat),
      combinations k (xs.map f) = (combinations k xs).map (List.map f) := by
  intro xs
  induction xs with
  | nil => intro k; cases k <;> simp [combinations]
  | cons x xs ih =>
    intro k
    cases k with
    | zero => simp [combinations]
    | succ k =>
      simp only [List.map_cons, combinations, ih, List.map_append, List.map_map]
      congr 1

theorem combinations_nodup {α : Type _} :
    ∀ (xs : List α), xs.Nodup → ∀ k, (combinations k xs).Nodup := by
  intro xs
  induction xs with
  | nil => intro _ k; cases k <;> simp [combinations]
  | cons x xs ih =>
    intro h k
    rcases List.nodup_cons.mp h with ⟨hx, hxs⟩
    cases k with
    | zero => simp [combinations]
    | succ k =>
      simp only [combinations]
      refine List.Nodup.append ((ih hxs k).map (List.cons_injective)) (ih hxs (k + 1)) ?_
      intro a ha ha'
      rcases List.mem_map.mp ha with ⟨t, _, rfl⟩
      have hsub : (x :: t).Sublist xs := ((mem_combinations xs (k + 1) _).mp ha').2
      exact hx (hsub.subset (List.mem_cons_self x t))

theorem lex_lt_irrefl : ∀ l : List Nat, ¬ List.Lex (· < ·) l l := by
  intro l
  induction l with
  | nil => intro h; cases h
  | cons x xs ih =>
    intro h
    cases h with
    | cons h => exact ih h
    | rel h => exact Nat.lt_irrefl x h

theorem combinations_pairwise_lex :
    ∀ (xs : List Nat), xs.Pairwise (· < ·) →
      ∀ k, (combinations k xs).Pairwise (List.Lex (· < ·)) := by
  intro xs
  induction xs with
  | nil => intro _ k; cases k <;> simp [combinations]
  | cons x xs ih =>
    intro h k
    rcases List.pairwise_cons.mp h with ⟨hx, hxs⟩
    cases k with
    | zero => simp [combinations]
    | succ k =>
      simp only [combinations]
      rw [List.pairwise_append]
      refine ⟨?_, ih hxs (k + 1), ?_⟩
      · rw [List.pairwise_map]
        exact (ih hxs k).imp (fun hab => List.Lex.cons hab)
      · intro a ha b hb
        rcases List.mem_map.mp ha with ⟨t, _, rfl⟩
        have hb' := (mem_combinations xs (k + 1) b).mp hb
        cases b with
        | nil => exact absurd hb'.1 (by simp)
        | cons y ys =>
          exact List.Lex.rel (hx y (hb'.2.subset (List.mem_cons_self y ys)))

theorem combinations_eq_nil {α : Type _} (xs : List α) (k : Nat) (h : xs.length < k) :
    combinations k xs = [] := by
  have hlen := combinations_length xs k
  rw [Nat.choose_eq_zero_of_lt h] at hlen
  exact List.length_eq_zero.mp hlen

theorem mem_get_combs_none {α : Type _} (xs : List α) (l : List α) :
    l ∈ get_combs xs .none ↔ l ≠ [] ∧ l.Sublist xs := by
  simp only [get_combs, List.mem_flatten, List.mem_map]
  constructor
  · rintro ⟨L, ⟨k, hk, rfl⟩, hl⟩
    have h := (mem_combinations xs k l).mp hl
    have hk1 : 1 ≤ k := (List.mem_range'_1.mp hk).1
    refine ⟨?_, h.2⟩
    intro hnil
    have h0 : l.length = k := h.1
    rw [hnil] at h0
    simp at h0
    omega
  · rintro ⟨hne, hsub⟩
    refine ⟨combinations l.length xs, ⟨l.length, ?_, rfl⟩,
      (mem_combinations xs _ l).mpr ⟨rfl, hsub⟩⟩
    rw [List.mem_range'_1]
    have h1 : 0 < l.length := List.length_pos.mpr hne
    have h2 : l.length ≤ xs.length := hsub.length_le
    omega

theorem list_sum_map_range (f : Nat → Nat) :
    ∀ n, ((List.range n).map f).sum = ∑ i ∈ Finset.range n, f i := by
  intro n
  induction n with
  | zero => simp
  | succ n ih =>
    rw [List.range_succ, List.map_append, List.sum_append, Finset.sum_range_succ, ih]
    simp

theorem get_combs_none_length {α : Type _} (xs : List α) :
    (get_combs xs .none).length = 2 ^ xs.length - 1 := by
  simp only [get_combs, List.length_flatten, List.map_map]
  have hmap : (List.range' 1 xs.length).map (List.length ∘ fun k => combinations k xs) =
      (List.range xs.length).map (fun i => xs.length.choose (1 + i)) := by
    rw [List.range'_eq_map_range, List.map_map]
    exact List.map_congr_left (fun a _ => by
      simp [Function.comp, combinations_length])
  rw [hmap, list_sum_map_range]
  have hshift : ∑ i ∈ Finset.range xs.length, xs.length.choose (1 + i) + 1 =
      2 ^ xs.length := by
    have h := Finset.sum_range_succ' (fun i => xs.length.choose i) xs.length
    rw [Nat.sum_range_choose] at h
    simp only [Nat.choose_zero_right] at h
    simp only [Nat.add_comm 1]
    omega
  omega

theorem get_combs_none_nodup {α : Type _} (xs : List α) (h : xs.Nodup) :
    (get_combs xs .none).Nodup := by
  simp only [get_combs]
  rw [List.nodup_flatten]
  constructor
  · intro L hL
    rcases List.mem_map.mp hL with ⟨k, _, rfl⟩
    exact combinations_nodup xs h k
  · rw [List.pairwise_map]
    refine (List.pairwise_lt_range' 1 xs.length).imp ?_
    intro k k' hkk' l hl hl'
    have h1 := (mem_combinations xs k l).mp hl
    have h2 := (mem_combinations xs k' l).mp hl'
    omega

theorem get_combs_none_pairwise (xs : List Nat) (h : xs.Pairwise (· < ·)) :
    (get_combs xs .none).Pairwise SizeThenLex := by
  simp only [get_combs]
  rw [List.pairwise_flatten]
  constructor
  · intro L hL
    rcases List.mem_map.mp hL with ⟨k, _, rfl⟩
    refine (combinations_pairwise_lex xs h k).imp_of_mem ?_
    intro a b ha hb hab
    have h1 := (mem_combinations xs k a).mp ha
    have h2 := (mem_combinations xs k b).mp hb
    exact Or.inr ⟨h1.1.trans h2.1.symm, hab⟩
  · rw [List.pairwise_map]
    refine (List.pairwise_lt_range' 1 xs.length).imp ?_
    intro k k' hkk' a ha b hb
    have h1 := (mem_combinations xs k a).mp ha
    have h2 := (mem_combinations xs k' b).mp hb
    exact Or.inl (by omega)

theorem map_getD_range {α : Type _} (xs : List α) (d : α) :
    (List.range xs.length).map (fun i => xs.getD i d) = xs := by
  induction xs with
  | nil => rfl
  | cons x xs ih =>
    rw [List.length_cons, List.range_succ_eq_map, List.map_cons, List.map_map]
    simp only [List.getD_cons_zero, Function.comp_def, List.getD_cons_succ]
    rw [ih]

theorem get_combs_none_eq_map_range {α : Type _} (xs : List α) (d : α) :
    get_combs xs .none =
      (get_combs (List.range xs.length) .none).map (List.map (fun i => xs.getD i d)) := by
  simp only [get_combs, List.map_flatten, List.map_map, List.length_range]
  congr 1
  refine List.map_congr_left fun k _ => ?_
  simp only [Function.comp_def]
  rw [← combinations_map, map_getD_range]

/-! ### Helpers about `filterMap` over wire ranges -/

theorem filterMap_ite_eq_filter_map {α β : Type _} (p : α → Prop) [DecidablePred p]
    (g : α → β) :
    ∀ l : List α,
      (l.filterMap fun a => if p a then some (g a) else none) =
        (l.filter fun a => decide (p a)).map g := by
  intro l
  induction l with
  | nil => rfl
  | cons x xs ih =>
    by_cases h : p x <;> simp [List.filterMap_cons, List.filter_cons, h, ih]

theorem range_filterMap_all {β : Type _} (n : Nat) (p : Nat → Prop) [DecidablePred p]
    (g : Nat → β) (h : ∀ k, k < n → p k) :
    ((List.range n).filterMap fun k => if p k then some (g k) else none) =
      (List.range n).map g := by
  rw [filterMap_ite_eq_filter_map]
  congr 1
  rw [List.filter_eq_self]
  intro a ha
  exact decide_eq_true (h a (List.mem_range.mp ha))

theorem range_filterMap_single {β : Type _} (w : Nat) (g : Nat → β) :
    ∀ n : Nat, w < n →
      ((List.range n).filterMap fun (k : Nat) =>
          if (k : Int) = (w : Int) then some (g k) else none) =
        [g w] := by
  intro n
  induction n with
  | zero => intro h; exact absurd h (Nat.not_lt_zero w)
  | succ n ih =>
    intro hw
    rw [List.range_succ, List.filterMap_append]
    rcases Nat.lt_succ_iff_lt_or_eq.mp hw with h | rfl
    · rw [ih h]
      have hne : n ≠ w := by omega
      simp [List.filterMap_cons, hne]
    · have h1 : ((List.range w).filterMap
          fun (k : Nat) => if (k : Int) = (w : Int) then some (g k) else none) = [] := by
        rw [List.filterMap_eq_nil_iff]
        intro a ha
        have haw : a < w := List.mem_range.mp ha
        rw [if_neg (by omega)]
      rw [h1]
      simp [List.filterMap_cons]

theorem mem_opIndex_filterMap {p : Nat → Prop} [DecidablePred p] {w : Nat → List Nat}
    {l : List Nat} {b : Nat}
    (hb : b ∈ ((l.filterMap fun k =>
        if p k then some (⟨k, w k⟩ : GateApp) else none).map GateApp.opIndex)) :
    b ∈ l := by
  rcases List.mem_map.mp hb with ⟨e, he, rfl⟩
  rcases List.mem_filterMap.mp he with ⟨a, ha, hfa⟩
  by_cases hpa : p a
  · rw [if_pos hpa] at hfa
    cases hfa
    exact ha
  · rw [if_neg hpa] at hfa
    cases hfa

theorem pairwise_opIndex_filterMap {p : Nat → Prop} [DecidablePred p] (w : Nat → List Nat) :
    ∀ l : List Nat, l.Pairwise (· < ·) →
      ((l.filterMap fun k =>
          if p k then some (⟨k, w k⟩ : GateApp) else none).map GateApp.opIndex).Pairwise
        (· < ·) := by
  intro l
  induction l with
  | nil => intro _; simp
  | cons x xs ih =>
    intro hl
    rcases List.pairwise_cons.mp hl with ⟨hx, hxs⟩
    rw [List.filterMap_cons]
    by_cases h : p x
    · rw [if_pos h]
      rw [List.map_cons, List.pairwise_cons]
      exact ⟨fun b hb => hx b (mem_opIndex_filterMap hb), ih hxs⟩
    · rw [if_neg h]
      exact ih hxs

theorem range'_chain_succ : ∀ (n s : Nat), (List.range' s n).Chain' (fun a b => b = a + 1) := by
  intro n
  induction n with
  | zero => intro s; simp
  | succ m ih =>
    intro s
    cases m with
    | zero => simp
    | succ m' =>
      rw [List.range'_succ, List.range'_succ, List.chain'_cons, ← List.range'_succ]
      exact ⟨rfl, ih (s + 1)⟩

/-! ### Claim theorems -/

/-- C9: for every `Super1QSingleWireLayer` with `n_wires ≥ 1` and
`sample_arch = w` with `w ∈ [0, n_wires)`, `forward` applies exactly one gate,
the gate instance indexed by `w` at wire `w`, and no gate at any other wire. -/
theorem super1QSingleWire_forward_only_w (n w d : Nat) (hw : w < n) :
    (super1QSingleWireForward ⟨n, (w : Int)⟩ d).2 = [⟨w, [w]⟩] := by
  simp only [super1QSingleWireForward]
  exact range_filterMap_single w (fun k => GateApp.mk k [k]) n hw

/-- Witness for C9: with `n_wires = 3` and `sample_arch = 1` the gate is
applied at wire 1 only. -/
theorem super1QSingleWire_forward_only_w_witness :
    1 < 3 ∧ (super1QSingleWireForward ⟨3, (1 : Int)⟩ 0).2 = [⟨1, [1]⟩] :=
  ⟨by decide, super1QSingleWire_forward_only_w 3 1 0 (by decide)⟩

/-- C10: `Super1QShareFrontLayer.arch_space` is exactly the consecutive
integers from `n_front_share_wires` to `n_wires` inclusive, in increasing
order; with `n_wires = 5` and `n_front_share_wires = 2` it is `[2,3,4,5]`. -/
theorem super1QShareFront_arch_space_consecutive :
    (∀ n nf x : Nat, x ∈ super1QShareFrontArchSpace n nf ↔ nf ≤ x ∧ x ≤ n) ∧
    (∀ n nf : Nat, (super1QShareFrontArchSpace n nf).Pairwise (· < ·)) ∧
    (∀ n nf : Nat, (super1QShareFrontArchSpace n nf).Chain' (fun a b => b = a + 1)) ∧
    super1QShareFrontArchSpace 5 2 = [2, 3, 4, 5] := by
  refine ⟨?_, ?_, ?_, by decide⟩
  · intro n nf x
    rw [super1QShareFrontArchSpace, List.mem_range'_1]
    omega
  · intro n nf
    exact List.pairwise_lt_range' _ _
  · intro n nf
    exact range'_chain_succ _ _

/-- C5 counterexample: `Super1QShareFrontLayer.forward` mutates the layer
itself, storing the passed device in its `q_device` attribute, so the claim
that no variant's `forward` mutates any state of the layer object is false. -/
theorem forward_frame_cex :
    (super1QShareFrontForward ⟨3, 1, 2, none⟩ 7).1 ≠
      (⟨3, 1, 2, none⟩ : Super1QShareFrontState) := by
  decide

/-- C5 (amended): calling `forward` twice with the same unchanged selector
yields the same gate-application sequence for every variant; no variant other
than `Super1QShareFrontLayer` changes the layer state, and
`Super1QShareFrontLayer.forward` changes only its `q_device` attribute, which
the gate-application sequence does not depend on. -/
theorem forward_frame_amended :
    (∀ (s : Super1QLayerState) (d : Nat),
        (super1QForward s d).1 = s ∧
          (super1QForward ((super1QForward s d).1) d).2 = (super1QForward s d).2) ∧
    (∀ (s : Super2QLayerState) (d : Nat),
        (super2QForward s d).1 = s ∧
          (super2QForward ((super2QForward s d).1) d).2 = (super2QForward s d).2) ∧
    (∀ (s : Super1QSingleWireState) (d : Nat),
        (super1QSingleWireForward s d).1 = s ∧
          (super1QSingleWireForward ((super1QSingleWireForward s d).1) d).2 =
            (super1QSingleWireForward s d).2) ∧
    (∀ (s : Super1QAllButOneState) (d : Nat),
        (super1QAllButOneForward s d).1 = s ∧
          (super1QAllButOneForward ((super1QAllButOneForward s d).1) d).2 =
            (super1QAllButOneForward s d).2) ∧
    (∀ (s : Super1QShareFrontState) (d : Nat),
        (super1QShareFrontForward s d).1 = { s with q_device := some d } ∧
          (super1QShareFrontForward ((super1QShareFrontForward s d).1) d).2 =
            (super1QShareFrontForward s d).2) :=
  ⟨fun _ _ => ⟨rfl, rfl⟩, fun _ _ => ⟨rfl, rfl⟩, fun _ _ => ⟨rfl, rfl⟩,
    fun _ _ => ⟨rfl, rfl⟩, fun _ _ => ⟨rfl, rfl⟩⟩

/-- C6 counterexample: `Super1QAllButOneLayer` with `n_wires = 3` and selector
`3` — not a member of its `arch_space` — neither silently applies no gates nor
faults: it applies a gate at every one of the three wires. -/
theorem out_of_space_cex :
    ((3 : Int) ∉ super1QAllButOneArchSpace 3) ∧
      (super1QAllButOneForward ⟨3, 3⟩ 0).2 = [⟨0, [0]⟩, ⟨1, [1]⟩, ⟨2, [2]⟩] := by
  decide

/-- C6 (amended): no variant validates or reports an out-of-space selector and
none faults on an out-of-range integer selector.  `Super1QSingleWireLayer`
silently applies no gates; `Super1QShareFrontLayer` with a threshold above
`n_wires` and `Super1QAllButOneLayer` with an index outside `[0, n_wires)`
apply a gate at every wire. -/
theorem out_of_space_amended :
    (∀ (n : Nat) (a : Int) (d : Nat), a ∉ super1QSingleWireArchSpace n →
        (super1QSingleWireForward ⟨n, a⟩ d).2 = []) ∧
    (∀ (n nf : Nat) (a : Int) (q : Option Nat) (d : Nat), (n : Int) < a →
        (super1QShareFrontForward ⟨n, nf, a, q⟩ d).2 =
          (List.range n).map (fun k => ⟨k, [k]⟩)) ∧
    (∀ (n : Nat) (a : Int) (d : Nat), a ∉ super1QAllButOneArchSpace n →
        (super1QAllButOneForward ⟨n, a⟩ d).2 = (List.range n).map (fun k => ⟨k, [k]⟩)) := by
  refine ⟨?_, ?_, ?_⟩
  · intro n a d ha
    simp only [super1QSingleWireForward]
    rw [List.filterMap_eq_nil_iff]
    intro k hk
    rw [if_neg]
    intro hka
    exact ha (List.mem_map.mpr ⟨k, hk, hka⟩)
  · intro n nf a q d hna
    simp only [super1QShareFrontForward]
    refine range_filterMap_all n _ _ ?_
    intro k hk
    have : (k : Int) < (n : Int) := by omega
    omega
  · intro n a d ha
    simp only [super1QAllButOneForward]
    refine range_filterMap_all n _ _ ?_
    intro k hk hka
    exact ha (List.mem_map.mpr ⟨k, List.mem_range.mpr hk, hka⟩)

/-- Witness for C6 (amended), at `n_wires = 3`, selector `5`. -/
theorem out_of_space_amended_witness :
    ((5 : Int) ∉ super1QSingleWireArchSpace 3 ∧
      (super1QSingleWireForward ⟨3, 5⟩ 0).2 = []) ∧
    ((3 : Int) < 5 ∧
      (super1QShareFrontForward ⟨3, 1, 5, none⟩ 0).2 =
        (List.range 3).map (fun k => ⟨k, [k]⟩)) ∧
    ((5 : Int) ∉ super1QAllButOneArchSpace 3 ∧
      (super1QAllButOneForward ⟨3, 5⟩ 0).2 = (List.range 3).map (fun k => ⟨k, [k]⟩)) :=
  ⟨⟨by decide, out_of_space_amended.1 3 5 0 (by decide)⟩,
    ⟨by decide, out_of_space_amended.2.1 3 1 5 none 0 (by decide)⟩,
    ⟨by decide, out_of_space_amended.2.2 3 5 0 (by decide)⟩⟩

/-- C8 counterexample: with the plain integer size `0`, `get_combs` returns
the single empty selection — even on an empty input — rather than an empty
result; the claim allows a non-empty result only when an *iterable* of sizes
contains `0`. -/
theorem get_combs_zero_cex :
    get_combs ([] : List Nat) (.int 0) = [[]] ∧
      get_combs ([] : List Nat) (.int 0) ≠ [] := by
  decide

/-- C8 (amended): `get_combs` returns an empty result when every requested
size is at least 1 and either the input is empty or every requested size
exceeds the input length; a requested size of `0` — whether the plain integer
`0` or an element of an iterable — contributes the single empty selection. -/
theorem get_combs_empty_amended :
    (get_combs ([] : List Nat) .none = []) ∧
    (∀ k : Nat, 0 < k → get_combs ([] : List Nat) (.int k) = []) ∧
    (∀ ns : List Nat, (∀ k ∈ ns, 0 < k) → get_combs ([] : List Nat) (.iter ns) = []) ∧
    (∀ (xs : List Nat) (k : Nat), xs.length < k → get_combs xs (.int k) = []) ∧
    (∀ (xs ns : List Nat), (∀ k ∈ ns, xs.length < k) → get_combs xs (.iter ns) = []) ∧
    (∀ xs : List Nat, get_combs xs (.int 0) = [[]]) ∧
    (∀ (xs ns : List Nat), 0 ∈ ns → [] ∈ get_combs xs (.iter ns)) := by
  refine ⟨rfl, ?_, ?_, ?_, ?_, fun xs => combinations_zero xs, ?_⟩
  · intro k hk
    cases k with
    | zero => omega
    | succ k => rfl
  · intro ns hns
    simp only [get_combs]
    rw [List.flatten_eq_nil_iff]
    intro l hl
    rcases List.mem_map.mp hl with ⟨k, hk, rfl⟩
    have := hns k hk
    cases k with
    | zero => omega
    | succ k => rfl
  · intro xs k h
    exact combinations_eq_nil xs k h
  · intro xs ns hns
    simp only [get_combs]
    rw [List.flatten_eq_nil_iff]
    intro l hl
    rcases List.mem_map.mp hl with ⟨k, hk, rfl⟩
    exact combinations_eq_nil xs k (hns k hk)
  · intro xs ns h0
    simp only [get_combs]
    refine List.mem_flatten.mpr ⟨combinations 0 xs, List.mem_map.mpr ⟨0, h0, rfl⟩, ?_⟩
    rw [combinations_zero]
    exact List.mem_singleton.mpr rfl

/-- Witness for C8 (amended): a size larger than the input length yields an
empty result. -/
theorem get_combs_empty_amended_witness :
    ([0] : List Nat).length < 2 ∧ get_combs ([0] : List Nat) (.int 2) = [] :=
  ⟨by decide, get_combs_empty_amended.2.2.2.1 [0] 2 (by decide)⟩

/-- C2: every selector produced by `Super2QLayer.arch_space` is a collection
of Python tuples, while `forward` tests membership of Python lists, which
never compare equal to tuples; hence `forward` applies no gate at all for any
selector taken verbatim from `arch_space`. -/
theorem super2Q_arch_space_selector_never_fires (n : Nat) (rev : Bool)
    (sel : List PySeq) (d : Nat) (hsel : sel ∈ super2QArchSpace n) :
    (super2QForward ⟨n, rev, sel⟩ d).2 = [] := by
  have hsub : sel.Sublist (super2QChoices n) :=
    ((mem_get_combs_none _ _).mp hsel).2
  have htup : ∀ e ∈ sel, ∃ ys, e = PySeq.tuple ys := by
    intro e he
    rcases List.mem_map.mp (hsub.subset he) with ⟨ys, _, rfl⟩
    exact ⟨ys, rfl⟩
  simp only [super2QForward]
  rw [List.filterMap_eq_nil_iff]
  intro k _
  rw [if_neg]
  rintro (h | h) <;> · rcases htup _ h with ⟨ys, hys⟩; exact PySeq.noConfusion hys

/-- Witness for C2: the sole selector of the `n_wires = 2` space activates
nothing. -/
theorem super2Q_arch_space_selector_never_fires_witness :
    [PySeq.tuple [0, 1]] ∈ super2QArchSpace 2 ∧
      (super2QForward ⟨2, true, [PySeq.tuple [0, 1]]⟩ 0).2 = [] :=
  ⟨by decide, super2Q_arch_space_selector_never_fires 2 true [PySeq.tuple [0, 1]] 0 (by decide)⟩

/-- C3: for `n_wires ≥ 1`, `Super1QLayer.arch_space` has exactly `2^n_wires - 1`
selectors, pairwise distinct, each a non-empty subsequence of
`range n_wires` (hence a non-empty subset of `{0,…,n_wires-1}` with distinct,
increasing entries), and every size from 1 to `n_wires` occurs. -/
theorem super1Q_arch_space_subsets (n : Nat) (_hn : 1 ≤ n) :
    (super1QArchSpace n).length = 2 ^ n - 1 ∧
    (super1QArchSpace n).Nodup ∧
    (∀ l ∈ super1QArchSpace n, l ≠ [] ∧ l.Sublist (List.range n)) ∧
    (∀ s : Nat, 1 ≤ s → s ≤ n → ∃ l ∈ super1QArchSpace n, l.length = s) := by
  simp only [super1QArchSpace]
  refine ⟨?_, ?_, ?_, ?_⟩
  · have h := get_combs_none_length (List.range n)
    rwa [List.length_range] at h
  · exact get_combs_none_nodup _ (List.nodup_range n)
  · intro l hl
    exact (mem_get_combs_none _ _).mp hl
  · intro s h1 hs
    refine ⟨List.range s, ?_, List.length_range s⟩
    rw [mem_get_combs_none]
    refine ⟨?_, List.range_sublist.mpr hs⟩
    intro hnil
    rw [List.range_eq_nil] at hnil
    omega

/-- Witness for C3 at `n_wires = 3`. -/
theorem super1Q_arch_space_subsets_witness :
    1 ≤ 3 ∧
      ((super1QArchSpace 3).length = 2 ^ 3 - 1 ∧
        (super1QArchSpace 3).Nodup ∧
        (∀ l ∈ super1QArchSpace 3, l ≠ [] ∧ l.Sublist (List.range 3)) ∧
        (∀ s : Nat, 1 ≤ s → s ≤ 3 → ∃ l ∈ super1QArchSpace 3, l.length = s)) :=
  ⟨by decide, super1Q_arch_space_subsets 3 (by decide)⟩

/-- C4: `get_combs(·, None)` enumerates every non-empty subsequence of the
input, exactly once when the input has no duplicates; each selection keeps its
elements in their relative input order (it is a subsequence); the whole output
is the position-subset enumeration over `range len` mapped back through the
input, and position subsets are ordered first by increasing size and within a
size lexicographically; `get_combs([0,1,2], None)` is the claimed list. -/
theorem get_combs_none_enumeration :
    (get_combs [0, 1, 2] .none = [[0], [1], [2], [0, 1], [0, 2], [1, 2], [0, 1, 2]]) ∧
    (∀ xs : List Nat, xs.Nodup →
        (get_combs xs .none).Nodup ∧
          ∀ l, l ∈ get_combs xs .none ↔ l ≠ [] ∧ l.Sublist xs) ∧
    (∀ xs : List Nat,
        get_combs xs .none =
          (get_combs (List.range xs.length) .none).map (List.map fun i => xs.getD i 0)) ∧
    (∀ n : Nat, (get_combs (List.range n) .none).Pairwise SizeThenLex) := by
  refine ⟨by decide, ?_, ?_, ?_⟩
  · intro xs h
    exact ⟨get_combs_none_nodup xs h, fun l => mem_get_combs_none xs l⟩
  · intro xs
    exact get_combs_none_eq_map_range xs 0
  · intro n
    exact get_combs_none_pairwise _ (List.pairwise_lt_range n)

/-- Witness for C4 on the duplicate-free input `[0, 1]`. -/
theorem get_combs_none_enumeration_witness :
    ([0, 1] : List Nat).Nodup ∧
      ((get_combs [0, 1] .none).Nodup ∧
        ∀ l, l ∈ get_combs [0, 1] .none ↔ l ≠ [] ∧ l.Sublist [0, 1]) :=
  ⟨by decide, get_combs_none_enumeration.2.1 [0, 1] (by decide)⟩

/-- C7: for `n_wires ≥ 2`, `Super2QLayer.arch_space` has
`2^C(n_wires, 2) - 1` selectors; its underlying choice list enumerates all
`C(n_wires, 2)` two-element combinations of `{0,…,n_wires-1}` — every pair
`i < j < n_wires`, not only cyclic-adjacent ones. -/
theorem super2Q_arch_space_size (n : Nat) (_hn : 2 ≤ n) :
    (super2QArchSpace n).length = 2 ^ n.choose 2 - 1 ∧
    (super2QChoices n).length = n.choose 2 ∧
    (∀ i j : Nat, i < j → j < n → PySeq.tuple [i, j] ∈ super2QChoices n) := by
  have hc : (super2QChoices n).length = n.choose 2 := by
    simp only [super2QChoices, List.length_map]
    rw [combinations_length, List.length_range]
  refine ⟨?_, hc, ?_⟩
  · have h := get_combs_none_length (super2QChoices n)
    rwa [hc] at h
  · intro i j hij hjn
    refine List.mem_map.mpr ⟨[i, j], ?_, rfl⟩
    rw [mem_combinations]
    refine ⟨rfl, ?_⟩
    have h1 : [i].Sublist (List.range j) :=
      List.singleton_sublist.mpr (List.mem_range.mpr hij)
    have h2 := h1.append (List.Sublist.refl [j])
    rw [← List.range_succ] at h2
    exact h2.trans (List.range_sublist.mpr hjn)

/-- Witness for C7 at `n_wires = 3`. -/
theorem super2Q_arch_space_size_witness :
    2 ≤ 3 ∧
      ((super2QArchSpace 3).length = 2 ^ Nat.choose 3 2 - 1 ∧
        (super2QChoices 3).length = Nat.choose 3 2 ∧
        (∀ i j : Nat, i < j → j < 3 → PySeq.tuple [i, j] ∈ super2QChoices 3)) :=
  ⟨by decide, super2Q_arch_space_size 3 (by decide)⟩

/-- C1 counterexample: with `n_wires = 2`, `wire_reverse = False`, and
`sample_arch = ((0, 1),)` — a member of `arch_space` whose element is the
Python tuple `(0, 1)` — the pair `(0, (0+1) mod 2)` *is* a member of
`sample_arch`, yet `forward` applies no gate at all: its membership tests
compare Python lists, which never equal tuples. -/
theorem super2Q_forward_pair_cex :
    spec_pairSelected 2 0 [PySeq.tuple [0, 1]] ∧
      (super2QForward ⟨2, false, [PySeq.tuple [0, 1]]⟩ 0).2 = [] := by
  decide

/-- C1 (amended): `forward` applies a gate for wire index `k` iff the Python
*list* `[k, (k+1) mod n_wires]` or its reverse is a member of `sample_arch`
(tuple members never match); when it applies, it uses the gate instance
indexed by `k` on the wire pair `sorted([k, (k+1) mod n_wires],
reverse=wire_reverse)`, and applications occur in increasing order of `k`. -/
theorem super2Q_forward_pairs_amended (n : Nat) (rev : Bool) (arch : List PySeq)
    (d : Nat) (_hn : 2 ≤ n) :
    (∀ k : Nat, k < n →
        (GateApp.mk k (pySorted [k, (k + 1) % n] rev) ∈ (super2QForward ⟨n, rev, arch⟩ d).2 ↔
          (PySeq.list [k, (k + 1) % n] ∈ arch ∨ PySeq.list [(k + 1) % n, k] ∈ arch))) ∧
    (∀ e ∈ (super2QForward ⟨n, rev, arch⟩ d).2,
        e.opIndex < n ∧ e.wires = pySorted [e.opIndex, (e.opIndex + 1) % n] rev) ∧
    ((super2QForward ⟨n, rev, arch⟩ d).2.map GateApp.opIndex).Pairwise (· < ·) := by
  simp only [super2QForward]
  refine ⟨?_, ?_, ?_⟩
  · intro k hk
    constructor
    · intro hmem
      rcases List.mem_filterMap.mp hmem with ⟨a, _, hfa⟩
      by_cases hga : PySeq.list [a, (a + 1) % n] ∈ arch ∨ PySeq.list [(a + 1) % n, a] ∈ arch
      · rw [if_pos hga] at hfa
        have hak : a = k := congrArg GateApp.opIndex (Option.some.inj hfa)
        rw [hak] at hga
        exact hga
      · rw [if_neg hga] at hfa
        cases hfa
    · intro hg
      exact List.mem_filterMap.mpr ⟨k, List.mem_range.mpr hk, by rw [if_pos hg]⟩
  · intro e he
    rcases List.mem_filterMap.mp he with ⟨a, ha, hfa⟩
    by_cases hga : PySeq.list [a, (a + 1) % n] ∈ arch ∨ PySeq.list [(a + 1) % n, a] ∈ arch
    · rw [if_pos hga] at hfa
      obtain rfl := Option.some.inj hfa
      exact ⟨List.mem_range.mp ha, rfl⟩
    · rw [if_neg hga] at hfa
      cases hfa
  · exact pairwise_opIndex_filterMap _ _ (List.pairwise_lt_range n)

/-- Witness for C1 (amended) at `n_wires = 2` with a list-pair selector. -/
theorem super2Q_forward_pairs_amended_witness :
    2 ≤ 2 ∧
      ((∀ k : Nat, k < 2 →
          (GateApp.mk k (pySorted [k, (k + 1) % 2] false) ∈
              (super2QForward ⟨2, false, [PySeq.list [0, 1]]⟩ 0).2 ↔
            (PySeq.list [k, (k + 1) % 2] ∈ [PySeq.list [0, 1]] ∨
              PySeq.list [(k + 1) % 2, k] ∈ [PySeq.list [0, 1]]))) ∧
        (∀ e ∈ (super2QForward ⟨2, false, [PySeq.list [0, 1]]⟩ 0).2,
            e.opIndex < 2 ∧ e.wires = pySorted [e.opIndex, (e.opIndex + 1) % 2] false) ∧
        ((super2QForward ⟨2, false, [PySeq.list [0, 1]]⟩ 0).2.map GateApp.opIndex).Pairwise
          (· < ·)) :=
  ⟨by decide, super2Q_forward_pairs_amended 2 false [PySeq.list [0, 1]] 0 (by decide)⟩
